import Mathlib

/-!
Verification of the semantics-tree parser and evaluator.

The development shallowly embeds the two Python modules:

* `SemanticsTree.py`: rule table, `Node`, `State`, percolation, and the
  explicit-stack enumerator `generate_all_valid_syntax_trees`;
* `Model.py`: the concrete model (domain, interpretation function `g`) and the
  compositional evaluator `Model.traverse`.

Python dictionaries are modelled as association lists with unique keys,
Python sets as lists whose membership test uses the corresponding structural
equality (set lookup first compares hashes, and structurally equal values have
equal hashes because the hash factors through a serialization that structural
equality preserves, so hash buckets never hide an equal element).  The
unbounded `while` loops (`pre_percolate` and the enumerator's stack loop) are
modelled with explicit fuel; `none` means the loop has not finished within the
given fuel (or, inside `apply_rule`, that a dictionary lookup raised).
-/

namespace SemTree

/-! ## Python string builtins: `str.split(" ")` and `" ".join` -/

/-- Characters of a string split at every space, as `"a  b".split(" ")` does in
Python: `[] ↦ [""]`, separators at the ends produce empty pieces. -/
def splitChars : List Char → List (List Char)
  | [] => [[]]
  | c :: cs =>
    if c = ' ' then [] :: splitChars cs
    else
      match splitChars cs with
      | t :: ts => (c :: t) :: ts
      | [] => [[c]]

/-- Python `sentence.split(" ")`. -/
def pySplit (s : String) : List String :=
  (splitChars s.data).map (fun cs => ⟨cs⟩)

/-- Python `" ".join(pieces)`. -/
def pyJoin : List String → String
  | [] => ""
  | [s] => s
  | s :: t :: rest => s ++ " " ++ pyJoin (t :: rest)

/-- The string contains no space character. -/
def spaceFree (s : String) : Bool :=
  s.data.all (fun c => c != ' ')

/-! ## `Node` (SemanticsTree.py)

`children: Optional[List[Node]] = None`; `None` marks a leaf.  The code
distinguishes `None` from `[]` in `Model.traverse` (`children is not None`)
but conflates them by truthiness in `__eq__` and `struct_string`. -/

inductive Node where
  | mk (label : String) (children : Option (List Node))

/-- `self.label`. -/
def Node.label : Node → String
  | .mk l _ => l

/-- `self.children`. -/
def Node.children : Node → Option (List Node)
  | .mk _ c => c

/-- Truthiness of a `children` field: `None` and `[]` are falsy. -/
def truthyChildren : Option (List Node) → Bool
  | none => false
  | some [] => false
  | some (_ :: _) => true

mutual

/-- `Node.__eq__`: unequal labels are unequal; a truthy `children` (a
non-empty list) against a falsy one (`None` or `[]`) is unequal; two truthy
ones compare pairwise with a length check; two falsy ones are equal.  The
nine constructor cases below spell out exactly that truthiness table. -/
def nodeEqb : Node → Node → Bool
  | .mk l1 c1, .mk l2 c2 =>
    if l1 != l2 then false
    else
      match c1, c2 with
      | none, none => true
      | none, some [] => true
      | some [], none => true
      | some [], some [] => true
      | none, some (_ :: _) => false
      | some [], some (_ :: _) => false
      | some (_ :: _), none => false
      | some (_ :: _), some [] => false
      | some (a :: as), some (b :: bs) => nodesEqb (a :: as) (b :: bs)

/-- Pairwise `Node.__eq__` over child lists (false on length mismatch,
mirroring the explicit length check in the source). -/
def nodesEqb : List Node → List Node → Bool
  | [], [] => true
  | a :: as, b :: bs => nodeEqb a b && nodesEqb as bs
  | _, _ => false

end

mutual

/-- `Node.struct_string`: the label-free bracket-shape serialization. -/
def structString : Node → String
  | .mk _ c =>
    match c with
    | some (a :: as) => "[" ++ structStrings (a :: as) ++ "]"
    | _ => "[]"

/-- Concatenated `struct_string`s of a child list. -/
def structStrings : List Node → String
  | [] => ""
  | a :: as => structString a ++ structStrings as

end

/-- `Node.__hash__` is `hash(self.struct_string())`; the interpreter's string
hash is abstracted as an arbitrary function `h`. -/
def nodeHash (h : String → Int) (n : Node) : Int :=
  h (structString n)

/-- Python `node in <list/set of nodes>`: some stored element equals it. -/
def node_in (n : Node) (l : List Node) : Bool :=
  l.any (fun x => nodeEqb x n)

/-! ## The rule table (SemanticsTree.py) -/

/-- A Python dict from rule keys to output labels, as an association list with
unique keys. -/
abbrev RuleTable := List (String × String)

/-- Python `rules[k]` / `k in rules`, as an optional lookup. -/
def rtLookup (t : RuleTable) (k : String) : Option String :=
  (t.find? (fun kv => kv.1 == k)).map (fun kv => kv.2)

/-- Python `rules[k] = v`: overwrite in place if present, else append. -/
def dictAssign (t : RuleTable) (k v : String) : RuleTable :=
  if (t.find? (fun kv => kv.1 == k)).isSome then
    t.map (fun kv => if kv.1 == k then (k, v) else kv)
  else
    t ++ [(k, v)]

/-- The module-level `default_rewrite_rules` literal. -/
def default_rewrite_rules : RuleTable :=
  [("NP VP", "S"),
   ("V_I", "VP"),
   ("V_T NP", "VP"),
   ("Q N'", "NP"),
   ("PN", "NP"),
   ("Adj N'", "N'"),
   ("N", "N'"),
   ("S XP", "S"),
   ("XP S", "S"),
   ("subord S", "XP"),
   ("albert", "PN"),
   ("betty", "PN"),
   ("carol", "PN"),
   ("steve", "PN"),
   ("oscar", "PN"),
   ("mike", "PN"),
   ("jane", "PN"),
   ("john", "PN"),
   ("alligator", "N"),
   ("dog", "N"),
   ("people", "N"),
   ("person", "N"),
   ("boy", "N"),
   ("cat", "N"),
   ("anxious", "Adj"),
   ("big", "Adj"),
   ("caring", "Adj"),
   ("ran", "V_I"),
   ("run", "V_I"),
   ("swam", "V_I"),
   ("cried", "V_I"),
   ("admired", "V_T"),
   ("kissed", "V_T"),
   ("insulted", "V_T"),
   ("scratched", "V_T"),
   ("if", "subord"),
   ("and", "coord"),
   ("or", "coord"),
   ("every", "Q"),
   ("all", "Q"),
   ("some", "Q"),
   ("no", "Q"),
   ("most", "Q"),
   ("an", "Q"),
   ("a", "Q"),
   ("one", "Q"),
   ("two", "Q"),
   ("three", "Q")]

/-- `"S,XP,NP,VP,Adj,N,V_I,V_T,N'".split(",")`. -/
def coordinatables : List String :=
  ["S", "XP", "NP", "VP", "Adj", "N", "V_I", "V_T", "N'"]

/-- `build_coordination_rules`: adds `"X coord X" -> X` for each coordinatable
`X` to the (module-level, shared) table. -/
def build_coordination_rules (t : RuleTable) : RuleTable :=
  coordinatables.foldl (fun acc c => dictAssign acc (c ++ " coord " ++ c) c) t

/-- The rule table actually used by every enumerator run: the constructor
`SemanticsTree.__init__` calls `build_coordination_rules` on the module-level
`default_rewrite_rules` before searching. -/
def tableD : RuleTable :=
  build_coordination_rules default_rewrite_rules

/-! ## Python list slicing -/

/-- Python `l[a:b]` with possibly negative bounds. -/
def pySlice {α : Type} (l : List α) (a b : Int) : List α :=
  let n := l.length
  let lo : Nat := if a < 0 then ((n : Int) + a).toNat else min a.toNat n
  let hi : Nat := if b < 0 then ((n : Int) + b).toNat else min b.toNat n
  (l.take hi).drop lo

/-- Python slice assignment `l[a:b] = repl`. -/
def pySliceAssign {α : Type} (l : List α) (a b : Int) (repl : List α) : List α :=
  let n := l.length
  let lo : Nat := if a < 0 then ((n : Int) + a).toNat else min a.toNat n
  let hi : Nat := if b < 0 then ((n : Int) + b).toNat else min b.toNat n
  l.take lo ++ repl ++ l.drop (max lo hi)

/-! ## `State` (SemanticsTree.py) -/

/-- `State.get_valid_rules`: for each span width `i+1` (widths 1..3, clipped to
the constituent count) and each `j` in `range(i, len+1)`, test whether the
space-joined labels of `constituents[j-(i+1):j]` form a table key, collecting
the index pairs.  Note `j = i` makes the lower bound `-1` (a Python negative
index), faithfully kept here via `pySlice` over `Int`. -/
def get_valid_rules (constituents : List Node) (rules : RuleTable) : List (Int × Int) :=
  let n := constituents.length
  (List.range (if 3 ≤ n then 3 else n)).flatMap (fun i =>
    (List.range (n + 1 - i)).filterMap (fun k =>
      let j : Nat := i + k
      let lo : Int := (j : Int) - ((i : Int) + 1)
      let seg := pySlice constituents lo (j : Int)
      if (rtLookup rules (pyJoin (seg.map Node.label))).isSome then
        some (lo, (j : Int))
      else none))

/-- A `State`: the constituent sequence together with the *mutable* list
`valid_rules` that `__init__` fills from `get_valid_rules`. -/
structure StateR where
  constituents : List Node
  valid_rules : List (Int × Int)

/-- `State.__init__(constituents, rewrite_rules)`. -/
def mkState (rules : RuleTable) (constituents : List Node) : StateR :=
  ⟨constituents, get_valid_rules constituents rules⟩

/-- `State.has_valid_rules`. -/
def has_valid_rules (st : StateR) : Bool :=
  !st.valid_rules.isEmpty

/-- `State.apply_rule`: pops the last span off `self.valid_rules` (mutation!),
wraps that span's constituents in a fresh parent node, and builds the successor
state.  Returns the pair (mutated self, new state); `none` models the
exceptions an empty pop or a missing dictionary key would raise. -/
def apply_rule (rules : RuleTable) (st : StateR) : Option (StateR × StateR) :=
  match st.valid_rules.getLast? with
  | none => none
  | some (i, j) =>
    match rtLookup rules
        (pyJoin ((pySlice st.constituents i j).map Node.label)) with
    | none => none
    | some v =>
      some ({ st with valid_rules := st.valid_rules.dropLast },
            mkState rules (pySliceAssign st.constituents i j
              [Node.mk v (some (pySlice st.constituents i j))]))

/-- `State.__eq__`: equal length and pairwise `Node.__eq__` on constituents
(`valid_rules` is ignored). -/
def stateEqb (a b : StateR) : Bool :=
  nodesEqb a.constituents b.constituents

/-- Python `state in <set of states>` (see the header note on hashing). -/
def state_in (st : StateR) (l : List StateR) : Bool :=
  l.any (fun x => stateEqb x st)

/-! ## The enumerator (SemanticsTree.py) -/

/-- The mutable locals of one `generate_all_valid_syntax_trees` call: the
explicit stack `Z` (head = top), plus `dead_ends`, `found_trees` and the
result list `valid_trees`. -/
structure LoopSt where
  Z : List StateR
  dead_ends : List StateR
  found_trees : List Node
  valid_trees : List Node

/-- One iteration of the `while len(Z) > 0` loop.  `Sum.inr` is loop exit with
the result, `Sum.inl` the next loop state, `none` an exception inside
`apply_rule`. -/
def stepLoop (rules : RuleTable) (ls : LoopSt) : Option (LoopSt ⊕ List Node) :=
  match ls.Z with
  | [] => some (Sum.inr ls.valid_trees)
  | top :: rest =>
    if !(state_in top ls.dead_ends) && has_valid_rules top then
      match apply_rule rules top with
      | none => none
      | some (top', new_state) =>
        some (Sum.inl { ls with Z := new_state :: top' :: rest })
    else
      match top.constituents with
      | [contender] =>
        if node_in contender ls.found_trees then
          some (Sum.inl { ls with Z := rest })
        else
          some (Sum.inl
            ⟨rest, ls.dead_ends, contender :: ls.found_trees,
             ls.valid_trees ++ [contender]⟩)
      | _ =>
        some (Sum.inl { ls with Z := rest, dead_ends := top :: ls.dead_ends })

/-- The loop, run for at most `fuel` iterations. -/
def runLoop (rules : RuleTable) : Nat → LoopSt → Option (List Node)
  | 0, _ => none
  | fuel + 1, ls =>
    match stepLoop rules ls with
    | none => none
    | some (Sum.inr out) => some out
    | some (Sum.inl ls') => runLoop rules fuel ls'

/-- One token's percolation: `while node.label in rewrite_rules: wrap`.  The
fuel bounds the number of rewrite steps; the source loop has no bound. -/
def percolate_token (rules : RuleTable) : Nat → Node → Option Node
  | fuel, nd =>
    match rtLookup rules nd.label with
    | none => some nd
    | some v =>
      match fuel with
      | 0 => none
      | fuel' + 1 => percolate_token rules fuel' (Node.mk v (some [nd]))

/-- `SemanticsTree.pre_percolate`: percolate every leaf of the tokenized
sentence in place. -/
def pre_percolate (rules : RuleTable) (pf : Nat) : List Node → Option (List Node)
  | [] => some []
  | nd :: rest =>
    match percolate_token rules pf nd with
    | none => none
    | some nd' =>
      match pre_percolate rules pf rest with
      | none => none
      | some rest' => some (nd' :: rest')

/-- `SemanticsTree.generate_all_valid_syntax_trees` (the rule table is a
parameter here; the source pins it to the module-level table): tokenize,
optionally pre-percolate, then run the stack loop from the initial state. -/
def generate_all_valid_trees (rules : RuleTable) (lf pf : Nat)
    (sentence : String) (pp : Bool) : Option (List Node) :=
  let noded := (pySplit sentence).map (fun t => Node.mk t none)
  match (if pp then pre_percolate rules pf noded else some noded) with
  | none => none
  | some noded' =>
    runLoop rules lf
      { Z := [mkState rules noded'], dead_ends := [],
        found_trees := [], valid_trees := [] }

/-- The pipeline as `SemanticsTree.__init__` invokes it: coordination rules
already merged into the shared table, percolation on. -/
def semantics_tree_run (lf pf : Nat) (sentence : String) : Option (List Node) :=
  generate_all_valid_trees tableD lf pf sentence true

/-! ## `Model.py`: the interpretation and the evaluator -/

/-- The Python values the model manipulates: individuals (strings), booleans,
unevaluated `Node`s (what `traverse` returns for arities other than 1 and 2),
and the closures `Model.__init__` builds —
`memFn S` is `gen_noun_func`/`gen_intrans_verb_func` (`λx. x ∈ S`),
`transFn R` is `gen_trans_verb_func` (`λy. λx. (x, y) ∈ R`) with `transFn1`
its partial application, and `quantFn n` is `gen_quant_func_num`
(`λs1. λs2. |CH(s1) ∩ CH(s2)| ≥ n`) with `quantFn1` its partial application. -/
inductive PyVal where
  | str (s : String)
  | bool (b : Bool)
  | node (n : Node)
  | memFn (S : List String)
  | transFn (R : List (String × String))
  | transFn1 (R : List (String × String)) (y : PyVal)
  | quantFn (n : Nat)
  | quantFn1 (n : Nat) (s1 : PyVal)

/-- `Model.domain` (a Python set literal of nine distinct atoms). -/
def modelDomain : List String :=
  ["a", "b", "c", "j", "m", "s", "x", "y", "z"]

/-- `Model.admired`. -/
def admiredPairs : List (String × String) :=
  [("j", "m"), ("s", "m"), ("a", "b"), ("b", "c")]

/-- `Model.runners`. -/
def runnersSet : List String :=
  ["x", "y", "j"]

/-- `Model.ch(f)`, the extension `{x ∈ domain | f(x)}` of a callable under
Python truthiness; `none` when some call in the comprehension raises.  A
string, boolean or node is not callable, so the first iteration raises;
`transFn`/`quantFn` return closures on every argument, and closures are
truthy, so the whole domain qualifies; `quantFn1 n s1` called on a domain
atom evaluates `len(ch(s1) ∩ ch(atom))` and `ch` of a string always raises
(the domain is non-empty), so the comprehension raises. -/
def ch (f : PyVal) : Option (List String) :=
  match f with
  | .memFn S => some (modelDomain.filter (fun x => S.contains x))
  | .transFn _ => some modelDomain
  | .transFn1 R y =>
    some (modelDomain.filter (fun x =>
      match y with
      | .str b => R.contains (x, b)
      | _ => false))
  | .quantFn _ => some modelDomain
  | _ => none

/-- A single Python call `f(v)`; `none` when it raises.  Membership tests
`v in S` against sets of strings (or of string pairs) are `False` for
non-string arguments rather than errors, matching Python `in`. -/
def callV (f v : PyVal) : Option PyVal :=
  match f with
  | .str _ => none
  | .bool _ => none
  | .node _ => none
  | .memFn S =>
    some (.bool (match v with
      | .str s => S.contains s
      | _ => false))
  | .transFn R => some (.transFn1 R v)
  | .transFn1 R y =>
    some (.bool (match v, y with
      | .str x, .str yy => R.contains (x, yy)
      | _, _ => false))
  | .quantFn n => some (.quantFn1 n v)
  | .quantFn1 n s1 =>
    match ch s1, ch v with
    | some A, some B =>
      some (.bool (decide (n ≤ (A.filter (fun x => B.contains x)).length)))
    | _, _ => none

/-- `Model.g`, the interpretation function built in `Model.__init__`. -/
def gModel : List (String × PyVal) :=
  [("albert", .str "a"),
   ("betty", .str "b"),
   ("carol", .str "c"),
   ("steve", .str "s"),
   ("jane", .str "j"),
   ("mike", .str "m"),
   ("people", .memFn ["a", "b", "c", "s", "j", "m"]),
   ("person", .memFn ["a", "b", "c", "s", "j", "m"]),
   ("cat", .memFn ["x", "y", "z"]),
   ("admired", .transFn admiredPairs),
   ("ran", .memFn runnersSet),
   ("a", .quantFn 1),
   ("three", .quantFn 3)]

/-- Lookup in `Model.g`. -/
def gLookup (k : String) : Option PyVal :=
  (gModel.find? (fun kv => kv.1 == k)).map (fun kv => kv.2)

/-- Exceptions `Model.traverse` can raise: `KeyError` from the leaf lookup
`self.g[label]`, and the `ValueError` raised when both application orders
fail. -/
inductive EvalErr where
  | keyError (label : String)
  | valueError (label : String)

/-- `Model.traverse`: leaves look their label up in `g`; one child passes
through; two children evaluate both sides and try `left(right)` then
`right(left)`; any other child count (including an empty child list) falls
through to `return tree_node`, yielding the node itself. -/
def traverse : Node → Except EvalErr PyVal
  | .mk lab none =>
    match gLookup lab with
    | some v => .ok v
    | none => .error (.keyError lab)
  | .mk _ (some [c]) => traverse c
  | .mk lab (some [c1, c2]) =>
    match traverse c1 with
    | .error e => .error e
    | .ok left =>
      match traverse c2 with
      | .error e => .error e
      | .ok right =>
        match callV left right with
        | some v => .ok v
        | none =>
          match callV right left with
          | some v => .ok v
          | none => .error (.valueError lab)
  | .mk lab (some cs) => .ok (.node (.mk lab (some cs)))

/-! ## Auxiliary data for the percolation claims -/

/-- A two-rule table whose length-1 rules form a cycle. -/
def cycTable : RuleTable :=
  [("A", "B"), ("B", "A")]

/-- The distinct labels mentioned by a table (keys and values). -/
def distinctLabels (t : RuleTable) : List String :=
  (t.map (fun kv => kv.1) ++ t.map (fun kv => kv.2)).dedup

/-! ## Lemmas about the string builtins -/

theorem splitChars_ne_nil (cs : List Char) : splitChars cs ≠ [] := by
  induction cs with
  | nil => simp [splitChars]
  | cons c cs ih =>
    by_cases hc : c = ' '
    · simp [splitChars, hc]
    · simp only [splitChars, if_neg hc]
      cases h : splitChars cs with
      | nil => simp
      | cons t ts => simp

theorem mem_splitChars_spaceFree {cs : List Char} {p : List Char}
    (hp : p ∈ splitChars cs) : ' ' ∉ p := by
  induction cs generalizing p with
  | nil =>
    simp [splitChars] at hp
    simp [hp]
  | cons c cs ih =>
    by_cases hc : c = ' '
    · simp [splitChars, hc] at hp
      rcases hp with hp | hp
      · simp [hp]
      · exact ih hp
    · simp only [splitChars, if_neg hc] at hp
      cases h : splitChars cs with
      | nil => exact absurd h (splitChars_ne_nil cs)
      | cons t ts =>
        rw [h] at hp
        simp at hp
        rcases hp with hp | hp
        · subst hp
          intro hmem
          rcases List.mem_cons.mp hmem with h1 | h1
          · exact hc h1.symm
          · exact ih (by simp [h]) h1
        · exact ih (by simp [h, hp])

theorem spaceFree_iff {s : String} : spaceFree s = true ↔ ' ' ∉ s.data := by
  simp only [spaceFree, List.all_eq_true, bne_iff_ne, ne_eq]
  constructor
  · intro h hmem
    exact h _ hmem rfl
  · intro h x hx hx'
    exact h (hx' ▸ hx)

theorem pySplit_spaceFree {s t : String} (ht : t ∈ pySplit s) :
    spaceFree t = true := by
  simp only [pySplit, List.mem_map] at ht
  obtain ⟨cs, hcs, rfl⟩ := ht
  exact spaceFree_iff.mpr (mem_splitChars_spaceFree hcs)

theorem splitChars_spaceFree_eq {xs : List Char} (h : ' ' ∉ xs) :
    splitChars xs = [xs] := by
  induction xs with
  | nil => rfl
  | cons c cs ih =>
    simp only [List.mem_cons, not_or] at h
    simp only [splitChars, if_neg (Ne.symm h.1), ih h.2]

theorem splitChars_append_space {xs : List Char} (ys : List Char)
    (h : ' ' ∉ xs) : splitChars (xs ++ ' ' :: ys) = xs :: splitChars ys := by
  induction xs with
  | nil => simp [splitChars]
  | cons c cs ih =>
    simp only [List.mem_cons, not_or] at h
    simp only [List.cons_append, splitChars, if_neg (Ne.symm h.1)]
    rw [show cs.append (' ' :: ys) = cs ++ ' ' :: ys from rfl, ih h.2]

theorem pySplit_pyJoin {ls : List String} (hne : ls ≠ [])
    (hsf : ∀ l ∈ ls, spaceFree l = true) : pySplit (pyJoin ls) = ls := by
  induction ls with
  | nil => exact absurd rfl hne
  | cons x rest ih =>
    cases rest with
    | nil =>
      show (splitChars x.data).map (fun cs => (⟨cs⟩ : String)) = [x]
      rw [splitChars_spaceFree_eq (spaceFree_iff.mp (hsf x (by simp)))]
      rfl
    | cons y rest' =>
      have hx : spaceFree x = true := hsf x (by simp)
      have hdata : (pyJoin (x :: y :: rest')).data
          = x.data ++ ' ' :: (pyJoin (y :: rest')).data := by
        show ((x ++ " ") ++ pyJoin (y :: rest')).data = _
        rw [String.data_append, String.data_append]
        simp
      show (splitChars (pyJoin (x :: y :: rest')).data).map
        (fun cs => (⟨cs⟩ : String)) = x :: y :: rest'
      rw [hdata, splitChars_append_space _ (spaceFree_iff.mp hx)]
      have := ih (by simp) (fun l hl => hsf l (by simp [hl]))
      simp only [pySplit] at this
      simp [this]

/-! ## Structural equality is consistent with the structural serialization -/

mutual

theorem nodeEqb_structString : ∀ a b : Node, nodeEqb a b = true →
    structString a = structString b
  | .mk l1 c1, .mk l2 c2, h => by
    cases c1 with
    | none =>
      cases c2 with
      | none => rfl
      | some l2' =>
        cases l2' with
        | nil => rfl
        | cons b bs => simp [nodeEqb] at h
    | some l1' =>
      cases l1' with
      | nil =>
        cases c2 with
        | none => rfl
        | some l2' =>
          cases l2' with
          | nil => rfl
          | cons b bs => simp [nodeEqb] at h
      | cons a as =>
        cases c2 with
        | none => simp [nodeEqb] at h
        | some l2' =>
          cases l2' with
          | nil => simp [nodeEqb] at h
          | cons b bs =>
            simp only [nodeEqb] at h
            by_cases hl : l1 = l2
            · rw [if_neg (by simp [hl])] at h
              have hrec := nodesEqb_structStrings (a :: as) (b :: bs) h
              simp only [structString, hrec]
            · rw [if_pos (by simp [hl])] at h
              exact absurd h (by simp)

theorem nodesEqb_structStrings : ∀ as bs : List Node, nodesEqb as bs = true →
    structStrings as = structStrings bs
  | [], [], _ => rfl
  | a :: as, b :: bs, h => by
    rw [nodesEqb, Bool.and_eq_true] at h
    rw [structStrings, structStrings, nodeEqb_structString a b h.1,
      nodesEqb_structStrings as bs h.2]

end

/-! ## Lemmas about table lookup -/

theorem rtLookup_mem {t : RuleTable} {k v : String} (h : rtLookup t k = some v) :
    (k, v) ∈ t := by
  unfold rtLookup at h
  cases hf : t.find? (fun kv => kv.1 == k) with
  | none => rw [hf] at h; simp at h
  | some kv =>
    rw [hf] at h
    simp only [Option.map_some', Option.some.injEq] at h
    have hm := List.mem_of_find?_eq_some hf
    have hp := List.find?_some hf
    simp only [beq_iff_eq] at hp
    obtain ⟨k', v'⟩ := kv
    simp only at hp h
    rw [← hp, ← h]
    exact hm

theorem rtLookup_isSome_exists {t : RuleTable} {k : String}
    (h : (rtLookup t k).isSome = true) : ∃ v, rtLookup t k = some v ∧ (k, v) ∈ t := by
  cases hv : rtLookup t k with
  | none => rw [hv] at h; simp at h
  | some v => exact ⟨v, rfl, rtLookup_mem hv⟩

/-! ## Lemmas about Python slices at in-range indices -/

theorem pySlice_natCast {α : Type} (l : List α) (a b : Nat) :
    pySlice l (a : Int) (b : Int)
      = (l.take (min b l.length)).drop (min a l.length) := by
  unfold pySlice
  have ha : ¬((a : Int) < 0) := by omega
  have hb : ¬((b : Int) < 0) := by omega
  simp [ha, hb, Int.toNat_ofNat]

theorem pySlice_inRange {α : Type} (l : List α) (a b : Nat)
    (hb : b ≤ l.length) :
    pySlice l (a : Int) (b : Int) = (l.take b).drop a := by
  rw [pySlice_natCast]
  rcases Nat.le_total a l.length with ha | ha
  · rw [Nat.min_eq_left hb, Nat.min_eq_left ha]
  · rw [Nat.min_eq_left hb, Nat.min_eq_right ha,
      List.drop_eq_nil_of_le (by simp only [List.length_take]; omega),
      List.drop_eq_nil_of_le (by simp only [List.length_take]; omega)]

theorem pySlice_neg_one {α : Type} (l : List α) (j : Nat) (hj : j < l.length) :
    pySlice l (-1) (j : Int) = [] := by
  unfold pySlice
  have h1 : (-1 : Int) < 0 := by omega
  have h2 : ¬((j : Int) < 0) := by omega
  simp only [h1, if_true, h2, if_false, Int.toNat_ofNat]
  rw [Nat.min_eq_left (le_of_lt hj)]
  apply List.drop_eq_nil_of_le
  have heq : ((l.length : Int) + -1).toNat = l.length - 1 := by omega
  rw [heq]
  simp
  omega

theorem pySliceAssign_inRange {α : Type} (l : List α) (a b : Nat)
    (repl : List α) (hab : a ≤ b) (hb : b ≤ l.length) :
    pySliceAssign l (a : Int) (b : Int) (repl) = l.take a ++ repl ++ l.drop b := by
  unfold pySliceAssign
  have ha' : ¬((a : Int) < 0) := by omega
  have hb' : ¬((b : Int) < 0) := by omega
  simp only [ha', hb', if_false, Int.toNat_ofNat]
  rw [Nat.min_eq_left hb, Nat.min_eq_left (hab.trans hb),
    Nat.max_eq_right hab]

/-! ## The applicable-span set computed by `get_valid_rules` -/

theorem mem_get_valid_rules {consts : List Node} {t : RuleTable} {s e : Int}
    (hE : rtLookup t "" = none) :
    ((s, e) ∈ get_valid_rules consts t) ↔
      ∃ a b : Nat, s = (a : Int) ∧ e = (b : Int) ∧ a < b ∧
        b ≤ consts.length ∧ b ≤ a + 3 ∧
        (rtLookup t
          (pyJoin (((consts.take b).drop a).map Node.label))).isSome = true := by
  unfold get_valid_rules
  simp only [List.mem_flatMap, List.mem_filterMap, List.mem_range]
  constructor
  · rintro ⟨i, hi, k, hk, hbody⟩
    have hin : i < consts.length := by
      by_cases h3 : 3 ≤ consts.length
      · rw [if_pos h3] at hi; omega
      · rw [if_neg h3] at hi; omega
    have hi3 : i < 3 := by
      by_cases h3 : 3 ≤ consts.length
      · rw [if_pos h3] at hi; omega
      · rw [if_neg h3] at hi; omega
    by_cases hk0 : k = 0
    · subst hk0
      exfalso
      rw [show i + 0 = i from rfl] at hbody
      rw [show ((i : Int) - ((i : Int) + 1)) = -1 by omega] at hbody
      rw [pySlice_neg_one consts i hin] at hbody
      simp only [List.map_nil] at hbody
      simp only [show pyJoin ([] : List String) = "" from rfl, hE] at hbody
      simp at hbody
    · have hk1 : 1 ≤ k := by omega
      have hjn : i + k ≤ consts.length := by omega
      have hlo : ((i + k : Nat) : Int) - ((i : Int) + 1) = ((k - 1 : Nat) : Int) := by
        omega
      simp only [hlo, pySlice_inRange consts (k - 1) (i + k) hjn] at hbody
      split at hbody
      · next hcond =>
        simp only [Option.some.injEq, Prod.mk.injEq] at hbody
        exact ⟨k - 1, i + k, hbody.1.symm, hbody.2.symm, by omega, hjn,
          by omega, hcond⟩
      · exact absurd hbody (by simp)
  · rintro ⟨a, b, rfl, rfl, hab, hbn, hba, hkey⟩
    refine ⟨b - a - 1, ?_, a + 1, ?_, ?_⟩
    · by_cases h3 : 3 ≤ consts.length
      · rw [if_pos h3]; omega
      · rw [if_neg h3]; omega
    · omega
    · have hj : (b - a - 1) + (a + 1) = b := by omega
      rw [hj]
      have hlo : ((b : Nat) : Int) - (((b - a - 1 : Nat) : Int) + 1) = ((a : Nat) : Int) := by
        omega
      simp only [hlo, pySlice_inRange consts a b hbn]
      rw [if_pos hkey]

/-- A state over a single constituent whose label is not a table key has no
applicable spans (assuming the table has no empty key). -/
theorem get_valid_rules_singleton {nd : Node} {t : RuleTable}
    (hE : rtLookup t "" = none) (h : rtLookup t nd.label = none) :
    get_valid_rules [nd] t = [] := by
  apply List.eq_nil_iff_forall_not_mem.mpr
  intro x hx
  obtain ⟨s, e⟩ := x
  rw [mem_get_valid_rules hE] at hx
  obtain ⟨a, b, _, _, hab, hb1, _, hkey⟩ := hx
  have ha0 : a = 0 := by simp at hb1; omega
  have hb1' : b = 1 := by simp at hb1; omega
  subst ha0; subst hb1'
  simp only [List.take_succ_cons, List.take_zero, List.drop_zero,
    List.map_cons, List.map_nil] at hkey
  rw [show pyJoin [nd.label] = nd.label from rfl, h] at hkey
  simp at hkey

/-! ## Facts about the concrete table `tableD`, checked by evaluation -/

/-- A label that never matches as a length-1 span: not a key, and space-free
(so that joined span keys decompose uniquely into labels). -/
def goodLab (l : String) : Bool :=
  (rtLookup tableD l).isNone && spaceFree l

theorem tableD_no_empty_key : rtLookup tableD "" = none := by decide

theorem tableD_closed_under_good :
    tableD.all (fun kv => !((pySplit kv.1).all goodLab) || goodLab kv.2) = true := by
  decide

theorem tableD_values_spaceFree :
    tableD.all (fun kv => spaceFree kv.2) = true := by decide

theorem tableD_good_of_mem {k v : String} (hmem : (k, v) ∈ tableD)
    (hks : (pySplit k).all goodLab = true) : goodLab v = true := by
  have h := List.all_eq_true.mp tableD_closed_under_good _ hmem
  simp only [Bool.or_eq_true, Bool.not_eq_true'] at h
  rcases h with h | h
  · rw [hks] at h; simp at h
  · exact h

theorem tableD_spaceFree_of_mem {k v : String} (hmem : (k, v) ∈ tableD) :
    spaceFree v = true :=
  List.all_eq_true.mp tableD_values_spaceFree _ hmem

/-! ## Percolation lemmas -/

theorem percolate_token_not_key {rules : RuleTable} :
    ∀ {pf : Nat} {n0 nd : Node}, percolate_token rules pf n0 = some nd →
      rtLookup rules nd.label = none := by
  intro pf
  induction pf with
  | zero =>
    intro n0 nd h
    rw [percolate_token] at h
    cases hl : rtLookup rules n0.label with
    | none => rw [hl] at h; simp at h; rw [← h]; exact hl
    | some v => rw [hl] at h; simp at h
  | succ f ih =>
    intro n0 nd h
    rw [percolate_token] at h
    cases hl : rtLookup rules n0.label with
    | none => rw [hl] at h; simp at h; rw [← h]; exact hl
    | some v => rw [hl] at h; exact ih h

theorem percolate_token_label {rules : RuleTable} :
    ∀ {pf : Nat} {n0 nd : Node}, percolate_token rules pf n0 = some nd →
      nd.label = n0.label ∨ ∃ k, (k, nd.label) ∈ rules := by
  intro pf
  induction pf with
  | zero =>
    intro n0 nd h
    rw [percolate_token] at h
    cases hl : rtLookup rules n0.label with
    | none => rw [hl] at h; simp at h; rw [← h]; left; rfl
    | some v => rw [hl] at h; simp at h
  | succ f ih =>
    intro n0 nd h
    rw [percolate_token] at h
    cases hl : rtLookup rules n0.label with
    | none => rw [hl] at h; simp at h; rw [← h]; left; rfl
    | some v =>
      rw [hl] at h
      rcases ih h with h1 | h1
      · right
        rw [h1]
        exact ⟨n0.label, rtLookup_mem hl⟩
      · right; exact h1

theorem pre_percolate_forall₂ {rules : RuleTable} {pf : Nat} :
    ∀ {l l' : List Node}, pre_percolate rules pf l = some l' →
      List.Forall₂ (fun x y => percolate_token rules pf x = some y) l l' := by
  intro l
  induction l with
  | nil =>
    intro l' h
    rw [pre_percolate] at h
    simp only [Option.some.injEq] at h
    rw [← h]
    exact List.Forall₂.nil
  | cons nd rest ih =>
    intro l' h
    rw [pre_percolate] at h
    cases h1 : percolate_token rules pf nd with
    | none => rw [h1] at h; simp at h
    | some nd' =>
      rw [h1] at h
      cases h2 : pre_percolate rules pf rest with
      | none => rw [h2] at h; simp at h
      | some rest' =>
        rw [h2] at h
        simp only [Option.some.injEq] at h
        rw [← h]
        exact List.Forall₂.cons h1 (ih h2)

/-- Every node produced by percolating a space-free token over `tableD`
carries a `goodLab` label. -/
theorem percolate_token_good {pf : Nat} {n0 nd : Node}
    (hsf : spaceFree n0.label = true)
    (h : percolate_token tableD pf n0 = some nd) : goodLab nd.label = true := by
  have hnk := percolate_token_not_key h
  rcases percolate_token_label h with h1 | ⟨k, hk⟩
  · have hnk' : rtLookup tableD n0.label = none := h1 ▸ hnk
    simp [goodLab, h1, hnk', hsf]
  · simp [goodLab, hnk, tableD_spaceFree_of_mem hk]

/-! ## Generic loop-invariant schema for the enumerator -/

theorem mem_of_getLast? {α : Type} : ∀ {l : List α} {x : α},
    l.getLast? = some x → x ∈ l := by
  intro l
  induction l with
  | nil => intro x h; simp [List.getLast?] at h
  | cons a as ih =>
    intro x h
    cases as with
    | nil => simp [List.getLast?] at h; simp [h]
    | cons b bs =>
      rw [List.getLast?_cons_cons] at h
      exact List.mem_cons_of_mem _ (ih h)

theorem runLoop_inv {rules : RuleTable} (P : LoopSt → Prop) (Q : List Node → Prop)
    (hstep : ∀ ls ls', P ls → stepLoop rules ls = some (Sum.inl ls') → P ls')
    (hdone : ∀ ls out, P ls → stepLoop rules ls = some (Sum.inr out) → Q out) :
    ∀ fuel ls out, P ls → runLoop rules fuel ls = some out → Q out := by
  intro fuel
  induction fuel with
  | zero => intro ls out _ h; simp [runLoop] at h
  | succ f ih =>
    intro ls out hP h
    rw [runLoop] at h
    cases hs : stepLoop rules ls with
    | none => rw [hs] at h; simp at h
    | some r =>
      rw [hs] at h
      cases r with
      | inr out' =>
        simp only [Option.some.injEq] at h
        rw [← h]
        exact hdone ls out' hP hs
      | inl ls' => exact ih ls' out (hstep ls ls' hP hs) h

/-- Anatomy of loop iterations that continue: exactly one of the three source
branches fired. -/
theorem stepLoop_inl_cases {rules : RuleTable} {ls ls' : LoopSt}
    (h : stepLoop rules ls = some (Sum.inl ls')) :
    (∃ top rest top' child, ls.Z = top :: rest ∧
       (!(state_in top ls.dead_ends) && has_valid_rules top) = true ∧
       apply_rule rules top = some (top', child) ∧
       ls' = { ls with Z := child :: top' :: rest }) ∨
    (∃ top rest contender, ls.Z = top :: rest ∧
       (!(state_in top ls.dead_ends) && has_valid_rules top) = false ∧
       top.constituents = [contender] ∧
       ((node_in contender ls.found_trees = true ∧ ls' = { ls with Z := rest }) ∨
        (node_in contender ls.found_trees = false ∧
         ls' = ⟨rest, ls.dead_ends, contender :: ls.found_trees,
                ls.valid_trees ++ [contender]⟩))) ∨
    (∃ top rest, ls.Z = top :: rest ∧
       (!(state_in top ls.dead_ends) && has_valid_rules top) = false ∧
       (∀ c, top.constituents ≠ [c]) ∧
       ls' = { ls with Z := rest, dead_ends := top :: ls.dead_ends }) := by
  obtain ⟨Z, dead, found, valid⟩ := ls
  cases Z with
  | nil => simp [stepLoop] at h
  | cons top rest =>
    simp only [stepLoop] at h
    split at h
    · next hcond =>
      cases hap : apply_rule rules top with
      | none => rw [hap] at h; simp at h
      | some pr =>
        obtain ⟨top', child⟩ := pr
        rw [hap] at h
        simp only [Option.some.injEq, Sum.inl.injEq] at h
        exact Or.inl ⟨top, rest, top', child, rfl, hcond, hap, h.symm⟩
    · next hcond =>
      have hcond' : (!(state_in top dead) && has_valid_rules top) = false := by
        revert hcond
        cases (!(state_in top dead) && has_valid_rules top) <;> simp
      split at h
      · next contender hc =>
        split at h
        · next hf =>
          simp only [Option.some.injEq, Sum.inl.injEq] at h
          exact Or.inr (Or.inl ⟨top, rest, contender, rfl, hcond', hc,
            Or.inl ⟨hf, h.symm⟩⟩)
        · next hf =>
          have hf' : node_in contender found = false := by
            revert hf
            cases node_in contender found <;> simp
          simp only [Option.some.injEq, Sum.inl.injEq] at h
          exact Or.inr (Or.inl ⟨top, rest, contender, rfl, hcond', hc,
            Or.inr ⟨hf', h.symm⟩⟩)
      · next hc =>
        simp only [Option.some.injEq, Sum.inl.injEq] at h
        refine Or.inr (Or.inr ⟨top, rest, rfl, hcond', ?_, h.symm⟩)
        intro c hceq
        exact hc c hceq

/-- A loop exit returns the accumulated `valid_trees` of an empty stack. -/
theorem stepLoop_inr_cases {rules : RuleTable} {ls : LoopSt} {out : List Node}
    (h : stepLoop rules ls = some (Sum.inr out)) :
    ls.Z = [] ∧ out = ls.valid_trees := by
  obtain ⟨Z, dead, found, valid⟩ := ls
  cases Z with
  | nil =>
    simp only [stepLoop, Option.some.injEq, Sum.inr.injEq] at h
    exact ⟨rfl, h.symm⟩
  | cons top rest =>
    simp only [stepLoop] at h
    split at h
    · next hcond =>
      cases hap : apply_rule rules top with
      | none => rw [hap] at h; simp at h
      | some pr => obtain ⟨a, b⟩ := pr; rw [hap] at h; simp at h
    · next hcond =>
      split at h
      · next contender hc =>
        split at h
        · simp at h
        · simp at h
      · simp at h

/-- Successful `apply_rule` on a state whose `valid_rules` is a prefix of the
derived span set: the popped span is in range, its key is in the table, and
both returned states are computed by the collapse. -/
theorem apply_rule_spec {t : RuleTable} {st : StateR}
    (hE : rtLookup t "" = none)
    (htake : ∃ m, st.valid_rules = (get_valid_rules st.constituents t).take m)
    (hne : has_valid_rules st = true) :
    ∃ (a b : Nat) (v : String),
      a < b ∧ b ≤ st.constituents.length ∧ b ≤ a + 3 ∧
      rtLookup t (pyJoin (((st.constituents.take b).drop a).map Node.label))
        = some v ∧
      apply_rule t st = some
        ({ st with valid_rules := st.valid_rules.dropLast },
          mkState t (st.constituents.take a
            ++ [Node.mk v (some ((st.constituents.take b).drop a))]
            ++ st.constituents.drop b)) := by
  obtain ⟨m, hm⟩ := htake
  have hne' : st.valid_rules ≠ [] := by
    simpa [has_valid_rules, List.isEmpty_iff] using hne
  obtain ⟨⟨s, e⟩, hlast⟩ : ∃ p, st.valid_rules.getLast? = some p := by
    cases hl : st.valid_rules.getLast? with
    | none => exact absurd (List.getLast?_eq_none_iff.mp hl) hne'
    | some p => exact ⟨p, rfl⟩
  have hmem0 : (s, e) ∈ st.valid_rules := mem_of_getLast? hlast
  have hmemL : (s, e) ∈ get_valid_rules st.constituents t := by
    rw [hm] at hmem0
    exact List.take_subset _ _ hmem0
  rw [mem_get_valid_rules hE] at hmemL
  obtain ⟨a, b, rfl, rfl, hab, hbn, hba, hkey⟩ := hmemL
  obtain ⟨v, hv, hvmem⟩ := rtLookup_isSome_exists hkey
  refine ⟨a, b, v, hab, hbn, hba, hv, ?_⟩
  rw [apply_rule, hlast]
  simp only [pySlice_inRange st.constituents a b hbn, hv,
    pySliceAssign_inRange st.constituents a b _ (le_of_lt hab) hbn]

/-! ## The no-length-1-span reachability invariant (claim C1) -/

/-- State invariant for runs over `tableD`: every constituent label is
`goodLab`, and `valid_rules` is a prefix of the derived span set (pops only
shorten it from the end). -/
def StInv (st : StateR) : Prop :=
  (∀ c ∈ st.constituents, goodLab c.label = true) ∧
  ∃ m, st.valid_rules = (get_valid_rules st.constituents tableD).take m

theorem goodLab_spaceFree {l : String} (h : goodLab l = true) :
    spaceFree l = true := by
  unfold goodLab at h
  simp only [Bool.and_eq_true] at h
  exact h.2

theorem goodLab_not_key {l : String} (h : goodLab l = true) :
    rtLookup tableD l = none := by
  unfold goodLab at h
  simp only [Bool.and_eq_true, Option.isNone_iff_eq_none] at h
  exact h.1

theorem collapse_preserves {st top' child : StateR}
    (hlab : ∀ c ∈ st.constituents, goodLab c.label = true)
    (htake : ∃ m, st.valid_rules = (get_valid_rules st.constituents tableD).take m)
    (hne : has_valid_rules st = true)
    (hap : apply_rule tableD st = some (top', child)) :
    StInv child ∧ StInv top' := by
  obtain ⟨a, b, v, hab, hbn, hba, hkeyv, hap'⟩ :=
    apply_rule_spec tableD_no_empty_key htake hne
  rw [hap'] at hap
  simp only [Option.some.injEq, Prod.mk.injEq] at hap
  obtain ⟨htop', hchild⟩ := hap
  have hseg : ∀ x ∈ (st.constituents.take b).drop a, x ∈ st.constituents :=
    fun x hx => List.take_subset _ _ (List.drop_subset _ _ hx)
  have hsegne : ((st.constituents.take b).drop a) ≠ [] := by
    intro hnil
    have hlen := congrArg List.length hnil
    rw [List.length_drop, List.length_take] at hlen
    simp only [List.length_nil] at hlen
    omega
  have hsplit : pySplit (pyJoin (((st.constituents.take b).drop a).map Node.label))
      = ((st.constituents.take b).drop a).map Node.label := by
    apply pySplit_pyJoin
    · exact fun hmapnil => hsegne (List.map_eq_nil.mp hmapnil)
    · intro l hl
      obtain ⟨x, hx, rfl⟩ := List.mem_map.mp hl
      exact goodLab_spaceFree (hlab x (hseg x hx))
  have hvgood : goodLab v = true := by
    apply tableD_good_of_mem (rtLookup_mem hkeyv)
    rw [hsplit]
    apply List.all_eq_true.mpr
    intro l hl
    obtain ⟨x, hx, rfl⟩ := List.mem_map.mp hl
    exact hlab x (hseg x hx)
  constructor
  · rw [← hchild]
    constructor
    · intro c hc
      simp only [mkState, List.mem_append, List.mem_singleton] at hc
      rcases hc with (hc | hc) | hc
      · exact hlab c (List.take_subset _ _ hc)
      · rw [hc]; exact hvgood
      · exact hlab c (List.drop_subset _ _ hc)
    · exact ⟨(get_valid_rules (mkState tableD _).constituents tableD).length,
        (List.take_length _).symm⟩
  · rw [← htop']
    constructor
    · exact hlab
    · obtain ⟨m, hm⟩ := htake
      refine ⟨min (((get_valid_rules st.constituents tableD).take m).length - 1) m,
        ?_⟩
      show st.valid_rules.dropLast = _
      rw [hm, List.dropLast_eq_take, List.take_take]

/-- The loop invariant for claim C1. -/
def P1 (ls : LoopSt) : Prop :=
  (∀ st ∈ ls.Z, StInv st) ∧ ∀ v ∈ ls.valid_trees, goodLab v.label = true

theorem P1_step (ls ls' : LoopSt) (hP : P1 ls)
    (hs : stepLoop tableD ls = some (Sum.inl ls')) : P1 ls' := by
  rcases stepLoop_inl_cases hs with
    ⟨top, rest, top', child, hZ, hcond, hap, hls'⟩ |
    ⟨top, rest, contender, hZ, hcond, hc, hbr⟩ |
    ⟨top, rest, hZ, hcond, hnc, hls'⟩
  · have htop : StInv top := hP.1 top (by rw [hZ]; exact List.mem_cons_self _ _)
    have hne : has_valid_rules top = true := by
      simp only [Bool.and_eq_true] at hcond
      exact hcond.2
    have hpres := collapse_preserves htop.1 htop.2 hne hap
    rw [hls']
    refine ⟨?_, hP.2⟩
    intro st hst
    simp only [List.mem_cons] at hst
    rcases hst with rfl | rfl | hst
    · exact hpres.1
    · exact hpres.2
    · exact hP.1 st (by rw [hZ]; exact List.mem_cons_of_mem _ hst)
  · have htop : StInv top := hP.1 top (by rw [hZ]; exact List.mem_cons_self _ _)
    have hrest : ∀ st ∈ rest, StInv st :=
      fun st hst => hP.1 st (by rw [hZ]; exact List.mem_cons_of_mem _ hst)
    rcases hbr with ⟨hf, hls'⟩ | ⟨hf, hls'⟩
    · rw [hls']
      exact ⟨hrest, hP.2⟩
    · rw [hls']
      refine ⟨hrest, ?_⟩
      intro v hv
      rcases List.mem_append.mp hv with hv | hv
      · exact hP.2 v hv
      · rw [List.mem_singleton.mp hv]
        exact htop.1 contender (by rw [hc]; exact List.mem_cons_self _ _)
  · rw [hls']
    exact ⟨fun st hst =>
      hP.1 st (by rw [hZ]; exact List.mem_cons_of_mem _ hst), hP.2⟩

theorem P1_done (ls : LoopSt) (out : List Node) (hP : P1 ls)
    (hs : stepLoop tableD ls = some (Sum.inr out)) :
    ∀ r ∈ out, goodLab r.label = true := by
  obtain ⟨_, hout⟩ := stepLoop_inr_cases hs
  rw [hout]
  exact hP.2

/-! ## The deduplication invariant (claim C2) -/

theorem node_in_false {c : Node} {l : List Node} (h : node_in c l = false) :
    ∀ x ∈ l, nodeEqb x c = false := by
  intro x hx
  cases he : nodeEqb x c with
  | false => rfl
  | true =>
    exfalso
    have : node_in c l = true := by
      unfold node_in
      exact List.any_eq_true.mpr ⟨x, hx, he⟩
    rw [h] at this
    exact Bool.false_ne_true this

/-- The loop invariant for claim C2 (any rule table). -/
def P2 (ls : LoopSt) : Prop :=
  (∀ v ∈ ls.valid_trees, v ∈ ls.found_trees) ∧
  ls.valid_trees.Pairwise (fun a b => nodeEqb a b = false)

theorem P2_step (rules : RuleTable) (ls ls' : LoopSt) (hP : P2 ls)
    (hs : stepLoop rules ls = some (Sum.inl ls')) : P2 ls' := by
  rcases stepLoop_inl_cases hs with
    ⟨top, rest, top', child, hZ, hcond, hap, hls'⟩ |
    ⟨top, rest, contender, hZ, hcond, hc, hbr⟩ |
    ⟨top, rest, hZ, hcond, hnc, hls'⟩
  · rw [hls']; exact hP
  · rcases hbr with ⟨hf, hls'⟩ | ⟨hf, hls'⟩
    · rw [hls']; exact hP
    · rw [hls']
      constructor
      · intro v hv
        rcases List.mem_append.mp hv with hv | hv
        · exact List.mem_cons_of_mem _ (hP.1 v hv)
        · rw [List.mem_singleton.mp hv]
          exact List.mem_cons_self _ _
      · rw [List.pairwise_append]
        refine ⟨hP.2, List.pairwise_singleton _ _, ?_⟩
        intro a ha b hb
        rw [List.mem_singleton.mp hb]
        exact node_in_false hf a (hP.1 a ha)
  · rw [hls']; exact hP

theorem P2_done (rules : RuleTable) (ls : LoopSt) (out : List Node) (hP : P2 ls)
    (hs : stepLoop rules ls = some (Sum.inr out)) :
    out.Pairwise (fun a b => nodeEqb a b = false) := by
  obtain ⟨_, hout⟩ := stepLoop_inr_cases hs
  rw [hout]
  exact hP.2

/-! ## Unfolding the pipeline -/

theorem generate_cases {rules : RuleTable} {lf pf : Nat} {sentence : String}
    {pp : Bool} {out : List Node}
    (h : generate_all_valid_trees rules lf pf sentence pp = some out) :
    ∃ noded',
      (if pp then
          pre_percolate rules pf
            ((pySplit sentence).map (fun t => Node.mk t none))
        else some ((pySplit sentence).map (fun t => Node.mk t none)))
        = some noded' ∧
      runLoop rules lf
        ⟨[mkState rules noded'], [], [], []⟩ = some out := by
  simp only [generate_all_valid_trees] at h
  cases hn : (if pp then
      pre_percolate rules pf ((pySplit sentence).map (fun t => Node.mk t none))
    else some ((pySplit sentence).map (fun t => Node.mk t none))) with
  | none => rw [hn] at h; simp at h
  | some noded' =>
    rw [hn] at h
    exact ⟨noded', rfl, h⟩

theorem forall₂_mem_right {α β : Type} {R : α → β → Prop} :
    ∀ {l : List α} {l' : List β}, List.Forall₂ R l l' →
      ∀ y ∈ l', ∃ x ∈ l, R x y := by
  intro l l' hf
  induction hf with
  | nil => intro y hy; exact absurd hy (List.not_mem_nil y)
  | cons hR hrest ih =>
    intro y hy
    rcases List.mem_cons.mp hy with rfl | hy
    · exact ⟨_, List.mem_cons_self _ _, hR⟩
    · obtain ⟨x, hx, hxy⟩ := ih y hy
      exact ⟨x, List.mem_cons_of_mem _ hx, hxy⟩

theorem forall₂_mem_left {α β : Type} {R : α → β → Prop} :
    ∀ {l : List α} {l' : List β}, List.Forall₂ R l l' →
      ∀ x ∈ l, ∃ y ∈ l', R x y := by
  intro l l' hf
  induction hf with
  | nil => intro x hx; exact absurd hx (List.not_mem_nil x)
  | cons hR hrest ih =>
    intro x hx
    rcases List.mem_cons.mp hx with rfl | hx
    · exact ⟨_, List.mem_cons_self _ _, hR⟩
    · obtain ⟨y, hy, hxy⟩ := ih x hx
      exact ⟨y, List.mem_cons_of_mem _ hy, hxy⟩

/-- Everything a pre-percolated token list satisfies: good labels all over. -/
theorem pre_percolate_good {pf : Nat} {sentence : String} {noded' : List Node}
    (hperc : pre_percolate tableD pf
      ((pySplit sentence).map (fun t => Node.mk t none)) = some noded') :
    ∀ nd ∈ noded', goodLab nd.label = true := by
  intro nd hnd
  have hf2 := pre_percolate_forall₂ hperc
  obtain ⟨n0, hn0, hpt⟩ := forall₂_mem_right hf2 nd hnd
  obtain ⟨t, ht, rfl⟩ := List.mem_map.mp hn0
  exact percolate_token_good
    (show spaceFree (Node.mk t none).label = true from pySplit_spaceFree ht) hpt

/-! ## Claim theorems C1 and C2 -/

/-- C1: every root returned by the enumerator pipeline (as the constructor
invokes it: coordination rules merged, percolation on), reinserted as a
singleton `State` against the same table, yields an empty applicable-span
set. -/
theorem c1_returned_roots_closed :
    ∀ (sentence : String) (lf pf : Nat) (out : List Node),
      semantics_tree_run lf pf sentence = some out →
      ∀ r ∈ out, (mkState tableD [r]).valid_rules = [] := by
  intro sentence lf pf out h r hr
  unfold semantics_tree_run at h
  obtain ⟨noded', hperc, hrun⟩ := generate_cases h
  rw [if_pos rfl] at hperc
  have hgood := pre_percolate_good hperc
  have hQ := runLoop_inv P1 (fun o => ∀ r' ∈ o, goodLab r'.label = true)
    P1_step P1_done lf _ out ?_ hrun
  · show get_valid_rules [r] tableD = []
    exact get_valid_rules_singleton tableD_no_empty_key
      (goodLab_not_key (hQ r hr))
  · constructor
    · intro st hst
      rw [List.mem_singleton.mp hst]
      exact ⟨hgood, (get_valid_rules noded' tableD).length,
        (List.take_length _).symm⟩
    · intro v hv
      exact absurd hv (List.not_mem_nil v)

/-- C2: the result list of any enumerator run is duplicate-free under
structural `Node.__eq__`, for every rule table, sentence and percolation
mode. -/
theorem c2_no_duplicate_trees :
    ∀ (rules : RuleTable) (lf pf : Nat) (sentence : String) (pp : Bool)
      (out : List Node),
      generate_all_valid_trees rules lf pf sentence pp = some out →
      out.Pairwise (fun a b => nodeEqb a b = false) := by
  intro rules lf pf sentence pp out h
  obtain ⟨noded', _, hrun⟩ := generate_cases h
  exact runLoop_inv P2 (fun o => o.Pairwise (fun a b => nodeEqb a b = false))
    (P2_step rules) (P2_done rules) lf _ out
    ⟨fun v hv => absurd hv (List.not_mem_nil v), List.Pairwise.nil⟩ hrun

/-! ## Tokens that occur in no rule key (claim C6) -/

/-- The token occurs in no key of `tableD`, neither as a whole length-1 key
nor as a component of a longer key. -/
def badTok (t : String) : Bool :=
  tableD.all (fun kv => !((pySplit kv.1).contains t))

theorem badTok_not_component {t k v : String} (h : badTok t = true)
    (hm : (k, v) ∈ tableD) : t ∉ pySplit k := by
  have h1 := List.all_eq_true.mp h _ hm
  simp only [Bool.not_eq_true'] at h1
  intro hmem
  have h2 : (pySplit k).contains t = true := List.elem_eq_true_of_mem hmem
  rw [h1] at h2
  exact Bool.false_ne_true h2

theorem pySplit_self {t : String} (hsf : spaceFree t = true) :
    pySplit t = [t] := by
  show (splitChars t.data).map (fun cs => (⟨cs⟩ : String)) = [t]
  rw [splitChars_spaceFree_eq (spaceFree_iff.mp hsf)]
  rfl

theorem badTok_not_key {t : String} (hsf : spaceFree t = true)
    (h : badTok t = true) : rtLookup tableD t = none := by
  cases hv : rtLookup tableD t with
  | none => rfl
  | some v =>
    exfalso
    apply badTok_not_component h (rtLookup_mem hv)
    rw [pySplit_self hsf]
    exact List.mem_cons_self _ _

theorem percolate_token_id {rules : RuleTable} {pf : Nat} {t : String}
    (h : rtLookup rules t = none) :
    percolate_token rules pf (Node.mk t none) = some (Node.mk t none) := by
  rw [percolate_token]
  rw [show (Node.mk t none).label = t from rfl, h]

theorem take_mid_drop {α : Type} (l : List α) {a b : Nat} (hab : a ≤ b) :
    l = l.take a ++ ((l.take b).drop a ++ l.drop b) := by
  have h1 : l.take b = l.take a ++ (l.take b).drop a := by
    conv_lhs => rw [← List.take_append_drop a (l.take b)]
    rw [List.take_take, Nat.min_eq_left hab]
  conv_lhs => rw [← List.take_append_drop b l, h1]
  rw [List.append_assoc]

/-- The C6 state invariant for a fixed bad token `t`: some constituent is the
bare token, at least two constituents remain, all labels are space-free, and
`valid_rules` is a prefix of the derived set. -/
def BInv (t : String) (st : StateR) : Prop :=
  (∃ c ∈ st.constituents, c.label = t) ∧
  2 ≤ st.constituents.length ∧
  (∀ c ∈ st.constituents, spaceFree c.label = true) ∧
  ∃ m, st.valid_rules = (get_valid_rules st.constituents tableD).take m

theorem collapse_preserves_bad {t : String} (hbt : badTok t = true)
    {st top' child : StateR} (hB : BInv t st)
    (hne : has_valid_rules st = true)
    (hap : apply_rule tableD st = some (top', child)) :
    BInv t child ∧ BInv t top' := by
  obtain ⟨⟨ct, hct, hctlab⟩, hlen2, hsf, htake⟩ := hB
  obtain ⟨a, b, v, hab, hbn, hba, hkeyv, hap'⟩ :=
    apply_rule_spec tableD_no_empty_key htake hne
  rw [hap'] at hap
  simp only [Option.some.injEq, Prod.mk.injEq] at hap
  obtain ⟨htop', hchild⟩ := hap
  set seg := (st.constituents.take b).drop a with hsegdef
  have hsegsub : ∀ x ∈ seg, x ∈ st.constituents :=
    fun x hx => List.take_subset _ _ (List.drop_subset _ _ hx)
  have hsegne : seg ≠ [] := by
    intro hnil
    have hlen := congrArg List.length hnil
    rw [hsegdef, List.length_drop, List.length_take] at hlen
    simp only [List.length_nil] at hlen
    omega
  have hsplit : pySplit (pyJoin (seg.map Node.label)) = seg.map Node.label := by
    apply pySplit_pyJoin
    · exact fun hmapnil => hsegne (List.map_eq_nil.mp hmapnil)
    · intro l hl
      obtain ⟨x, hx, rfl⟩ := List.mem_map.mp hl
      exact hsf x (hsegsub x hx)
  -- the bad-token constituent lies outside the collapsed span
  have hct' : ct ∈ st.constituents.take a ∨ ct ∈ st.constituents.drop b := by
    have hmem := hct
    rw [take_mid_drop st.constituents (le_of_lt hab)] at hmem
    rcases List.mem_append.mp hmem with h1 | h1
    · exact Or.inl h1
    · rcases List.mem_append.mp h1 with h1 | h1
      · exfalso
        apply badTok_not_component hbt (rtLookup_mem hkeyv)
        rw [hsplit]
        exact List.mem_map.mpr ⟨ct, h1, hctlab⟩
      · exact Or.inr h1
  have hchildconsts : child.constituents
      = st.constituents.take a ++ [Node.mk v (some seg)]
        ++ st.constituents.drop b := by
    rw [← hchild]
    rfl
  have hchildlen : child.constituents.length
      = a + (1 + (st.constituents.length - b)) := by
    rw [hchildconsts]
    simp only [List.length_append, List.length_take, List.length_drop,
      List.length_cons, List.length_nil]
    omega
  constructor
  · refine ⟨⟨ct, ?_, hctlab⟩, ?_, ?_, ?_⟩
    · rw [hchildconsts]
      rcases hct' with h1 | h1
      · exact List.mem_append.mpr (Or.inl (List.mem_append.mpr (Or.inl h1)))
      · exact List.mem_append.mpr (Or.inr h1)
    · rw [hchildlen]
      rcases hct' with h1 | h1
      · have : st.constituents.take a ≠ [] := List.ne_nil_of_mem h1
        have hlen := List.length_pos.mpr this
        rw [List.length_take] at hlen
        omega
      · have : st.constituents.drop b ≠ [] := List.ne_nil_of_mem h1
        have hlen := List.length_pos.mpr this
        rw [List.length_drop] at hlen
        omega
    · intro c hc
      rw [hchildconsts] at hc
      rcases List.mem_append.mp hc with h1 | h1
      · rcases List.mem_append.mp h1 with h1 | h1
        · exact hsf c (List.take_subset _ _ h1)
        · rw [List.mem_singleton.mp h1]
          exact tableD_spaceFree_of_mem (rtLookup_mem hkeyv)
      · exact hsf c (List.drop_subset _ _ h1)
    · rw [← hchild]
      exact ⟨(get_valid_rules (mkState tableD _).constituents tableD).length,
        (List.take_length _).symm⟩
  · rw [← htop']
    refine ⟨⟨ct, hct, hctlab⟩, hlen2, hsf, ?_⟩
    obtain ⟨m, hm⟩ := htake
    refine ⟨min (((get_valid_rules st.constituents tableD).take m).length - 1) m,
      ?_⟩
    show st.valid_rules.dropLast = _
    rw [hm, List.dropLast_eq_take, List.take_take]

/-- The loop invariant for claim C6. -/
def P6 (t : String) (ls : LoopSt) : Prop :=
  (∀ st ∈ ls.Z, BInv t st) ∧ ls.valid_trees = []

theorem P6_step (t : String) (hbt : badTok t = true) (ls ls' : LoopSt)
    (hP : P6 t ls) (hs : stepLoop tableD ls = some (Sum.inl ls')) : P6 t ls' := by
  rcases stepLoop_inl_cases hs with
    ⟨top, rest, top', child, hZ, hcond, hap, hls'⟩ |
    ⟨top, rest, contender, hZ, hcond, hc, hbr⟩ |
    ⟨top, rest, hZ, hcond, hnc, hls'⟩
  · have htop : BInv t top := hP.1 top (by rw [hZ]; exact List.mem_cons_self _ _)
    have hne : has_valid_rules top = true := by
      simp only [Bool.and_eq_true] at hcond
      exact hcond.2
    have hpres := collapse_preserves_bad hbt htop hne hap
    rw [hls']
    refine ⟨?_, hP.2⟩
    intro st hst
    simp only [List.mem_cons] at hst
    rcases hst with rfl | rfl | hst
    · exact hpres.1
    · exact hpres.2
    · exact hP.1 st (by rw [hZ]; exact List.mem_cons_of_mem _ hst)
  · exfalso
    have htop : BInv t top := hP.1 top (by rw [hZ]; exact List.mem_cons_self _ _)
    have hlen := htop.2.1
    rw [hc] at hlen
    simp at hlen
  · rw [hls']
    exact ⟨fun st hst =>
      hP.1 st (by rw [hZ]; exact List.mem_cons_of_mem _ hst), hP.2⟩

theorem P6_done (t : String) (ls : LoopSt) (out : List Node) (hP : P6 t ls)
    (hs : stepLoop tableD ls = some (Sum.inr out)) : out = [] := by
  obtain ⟨_, hout⟩ := stepLoop_inr_cases hs
  rw [hout]
  exact hP.2

/-- Amended C6: on a sentence of at least two tokens, one of which occurs in
no rule key at all, every completed run of the pipeline returns the empty
forest. -/
theorem c6_unknown_token_empty_forest :
    ∀ (sentence : String) (t : String) (lf pf : Nat) (out : List Node),
      t ∈ pySplit sentence → badTok t = true →
      2 ≤ (pySplit sentence).length →
      semantics_tree_run lf pf sentence = some out → out = [] := by
  intro sentence t lf pf out htmem hbt hlen2 h
  unfold semantics_tree_run at h
  obtain ⟨noded', hperc, hrun⟩ := generate_cases h
  rw [if_pos rfl] at hperc
  have hf2 := pre_percolate_forall₂ hperc
  have hsf_t : spaceFree t = true := pySplit_spaceFree htmem
  -- the bare token survives percolation unchanged
  have htnode : Node.mk t none ∈ (pySplit sentence).map (fun s => Node.mk s none) :=
    List.mem_map.mpr ⟨t, htmem, rfl⟩
  obtain ⟨y, hy, hpt⟩ := forall₂_mem_left hf2 _ htnode
  rw [percolate_token_id (badTok_not_key hsf_t hbt)] at hpt
  have hyt : y = Node.mk t none := by
    simp only [Option.some.injEq] at hpt
    exact hpt.symm
  refine runLoop_inv (P6 t) (fun o => o = []) (P6_step t hbt) (P6_done t)
    lf _ out ⟨?_, rfl⟩ hrun
  intro st hst
  rw [List.mem_singleton.mp hst]
  refine ⟨⟨y, hy, by rw [hyt]; rfl⟩, ?_, ?_, ?_⟩
  · have hleq := List.Forall₂.length_eq hf2
    rw [List.length_map] at hleq
    show 2 ≤ noded'.length
    omega
  · intro c hc
    exact goodLab_spaceFree (pre_percolate_good hperc c hc)
  · exact ⟨(get_valid_rules noded' tableD).length, (List.take_length _).symm⟩

/-! ## Single-token sentences (claim C10) -/

/-- C10: a sentence that tokenizes to a single token always yields the forest
containing exactly the percolation chain over that token, whether or not the
token occurs in the grammar. -/
theorem c10_singleton_sentence_one_tree :
    ∀ (sentence t : String) (lf pf : Nat) (out : List Node),
      pySplit sentence = [t] →
      semantics_tree_run lf pf sentence = some out →
      ∃ nd, percolate_token tableD pf (Node.mk t none) = some nd ∧ out = [nd] := by
  intro sentence t lf pf out hsp h
  unfold semantics_tree_run at h
  obtain ⟨noded', hperc, hrun⟩ := generate_cases h
  rw [if_pos rfl, hsp] at hperc
  simp only [List.map_cons, List.map_nil] at hperc
  cases hp : percolate_token tableD pf (Node.mk t none) with
  | none =>
    rw [pre_percolate, hp] at hperc
    simp at hperc
  | some nd =>
    have hnoded : noded' = [nd] := by
      rw [pre_percolate, hp, pre_percolate] at hperc
      simp only [Option.some.injEq] at hperc
      exact hperc.symm
    refine ⟨nd, rfl, ?_⟩
    subst hnoded
    have hrules : get_valid_rules [nd] tableD = [] :=
      get_valid_rules_singleton tableD_no_empty_key (percolate_token_not_key hp)
    have hstep1 : stepLoop tableD ⟨[mkState tableD [nd]], [], [], []⟩
        = some (Sum.inl ⟨[], [], [nd], [nd]⟩) := by
      simp [stepLoop, state_in, has_valid_rules, mkState, hrules, node_in]
    have hstep2 : stepLoop tableD ⟨[], [], [nd], [nd]⟩ = some (Sum.inr [nd]) := rfl
    cases lf with
    | zero => simp [runLoop] at hrun
    | succ f =>
      simp only [runLoop, hstep1] at hrun
      cases f with
      | zero => simp [runLoop] at hrun
      | succ f' =>
        simp only [runLoop, hstep2, Option.some.injEq] at hrun
        exact hrun.symm

/-! ## `apply_rule` mutation (claim C3) -/

theorem apply_rule_pops {t : RuleTable} {st p c : StateR}
    (h : apply_rule t st = some (p, c)) :
    p.constituents = st.constituents ∧
    p.valid_rules = st.valid_rules.dropLast := by
  rw [apply_rule] at h
  split at h
  · simp at h
  · next i j heq =>
    split at h
    · simp at h
    · next v hv =>
      simp only [Option.some.injEq, Prod.mk.injEq] at h
      rw [← h.1]
      exact ⟨rfl, rfl⟩

/-! ## Percolation over the default table terminates (claim C5) -/

theorem percolate_token_done {rules : RuleTable} {pf : Nat} {l : String}
    {c : Option (List Node)} (hl : rtLookup rules l = none) :
    percolate_token rules pf (Node.mk l c) = some (Node.mk l c) := by
  rw [percolate_token, show (Node.mk l c).label = l from rfl, hl]

theorem percolate_token_zero_key {rules : RuleTable} {l v : String}
    {c : Option (List Node)} (hl : rtLookup rules l = some v) :
    percolate_token rules 0 (Node.mk l c) = none := by
  rw [percolate_token, show (Node.mk l c).label = l from rfl, hl]

theorem percolate_token_step {rules : RuleTable} {pf : Nat} {l v : String}
    {c : Option (List Node)} (hl : rtLookup rules l = some v) :
    percolate_token rules (pf + 1) (Node.mk l c)
      = percolate_token rules pf (Node.mk v (some [Node.mk l c])) := by
  rw [percolate_token, show (Node.mk l c).label = l from rfl, hl]

theorem percolate_isSome_congr {rules : RuleTable} :
    ∀ (pf : Nat) (l : String) (c c' : Option (List Node)),
      (percolate_token rules pf (Node.mk l c)).isSome
        = (percolate_token rules pf (Node.mk l c')).isSome := by
  intro pf
  induction pf with
  | zero =>
    intro l c c'
    cases hl : rtLookup rules l with
    | none => rw [percolate_token_done hl, percolate_token_done hl]; rfl
    | some v => rw [percolate_token_zero_key hl, percolate_token_zero_key hl]
  | succ f ih =>
    intro l c c'
    cases hl : rtLookup rules l with
    | none => rw [percolate_token_done hl, percolate_token_done hl]; rfl
    | some v =>
      rw [percolate_token_step hl, percolate_token_step hl]
      exact ih v _ _

theorem tableD_values_percolate :
    tableD.all (fun kv =>
      (percolate_token tableD 2 (Node.mk kv.2 none)).isSome) = true := by decide

set_option maxRecDepth 4000 in
/-- C5 amended: for the default table every token's percolation chain closes
within 3 rewrite steps (3 is at most the number of distinct labels of the
table), but the loop itself contains no cycle detection and no error: over
the cyclic table `A -> B -> A` it never exits, for any step bound. -/
theorem c5_percolation_terminates_default_table :
    (∀ t : String, (percolate_token tableD 3 (Node.mk t none)).isSome = true) ∧
    3 ≤ (distinctLabels tableD).length ∧
    (∀ fuel : Nat, percolate_token cycTable fuel (Node.mk "A" none) = none) := by
  refine ⟨?_, by decide, ?_⟩
  · intro t
    cases hl : rtLookup tableD t with
    | none => rw [percolate_token_done hl]; rfl
    | some v =>
      rw [show (3 : Nat) = 2 + 1 from rfl, percolate_token_step hl,
        percolate_isSome_congr 2 v _ none]
      exact List.all_eq_true.mp tableD_values_percolate _ (rtLookup_mem hl)
  · have hAB : ∀ fuel : Nat, ∀ l : String, (l = "A" ∨ l = "B") →
        ∀ c, percolate_token cycTable fuel (Node.mk l c) = none := by
      intro fuel
      induction fuel with
      | zero =>
        rintro l (rfl | rfl) c
        · exact percolate_token_zero_key
            (show rtLookup cycTable "A" = some "B" from rfl)
        · exact percolate_token_zero_key
            (show rtLookup cycTable "B" = some "A" from rfl)
      | succ f ih =>
        rintro l (rfl | rfl) c
        · rw [percolate_token_step
            (show rtLookup cycTable "A" = some "B" from rfl)]
          exact ih "B" (Or.inr rfl) _
        · rw [percolate_token_step
            (show rtLookup cycTable "B" = some "A" from rfl)]
          exact ih "A" (Or.inl rfl) _
    exact fun fuel => hAB fuel "A" (Or.inl rfl) none

/-- C5 counterexample: over the cyclic two-rule table, whose distinct-label
count is 2, percolation of the token `A` has not finished after 2 rewrite
steps (and, per the amended theorem, never finishes): the claimed bound and
the claimed `GrammarCycleError` do not exist in the code. -/
theorem c5_cycle_counterexample :
    percolate_token cycTable 2 (Node.mk "A" none) = none ∧
    (distinctLabels cycTable).length = 2 := ⟨rfl, rfl⟩

/-! ## Claim C3: the span set is exact at construction, but `apply_rule`
mutates it -/

/-- C3 amended: at construction (`State.__init__`) the stored `valid_rules`
is exactly the set of spans `(start, end)` with `0 ≤ start < end ≤ n`,
`end - start ≤ 3`, whose space-joined labels are a table key (for any table
without an empty-string key); however the set is not immutable afterwards:
every successful `apply_rule` removes the last span from the state it was
called on (Python `list.pop()`), leaving the constituents unchanged. -/
theorem c3_spans_exact_at_construction_but_popped :
    (∀ (t : RuleTable) (constituents : List Node) (s e : Int),
      rtLookup t "" = none →
      (((s, e) ∈ (mkState t constituents).valid_rules) ↔
        ∃ a b : Nat, s = (a : Int) ∧ e = (b : Int) ∧ a < b ∧
          b ≤ constituents.length ∧ b ≤ a + 3 ∧
          (rtLookup t
            (pyJoin (((constituents.take b).drop a).map Node.label))).isSome
              = true)) ∧
    (∀ (t : RuleTable) (st p c : StateR), apply_rule t st = some (p, c) →
      p.constituents = st.constituents ∧
      p.valid_rules = st.valid_rules.dropLast) :=
  ⟨fun _ _ _ _ hE => mem_get_valid_rules hE,
   fun _ _ _ _ h => apply_rule_pops h⟩

/-- The constituent pair `NP VP` used by the C3 concrete instances. -/
def nNP : Node := Node.mk "NP" none

/-- See `nNP`. -/
def nVP : Node := Node.mk "VP" none

/-- The state `apply_rule` leaves behind on `[NP, VP]`: same constituents,
`valid_rules` already emptied by the pop. -/
def c3Parent : StateR := ⟨[nNP, nVP], []⟩

/-- The successor state produced from `[NP, VP]`. -/
def c3Child : StateR := mkState tableD [Node.mk "S" (some [nNP, nVP])]

/-- C3 counterexample: on the state built from `[NP, VP]` the derived span
set is `[(0, 2)]`, yet after one `apply_rule` the state's stored
`valid_rules` is `[]` — the stored set has been mutated away from the
derived set, refuting "never mutated afterwards". -/
theorem c3_mutation_counterexample :
    get_valid_rules [nNP, nVP] tableD = [((0 : Int), (2 : Int))] ∧
    (apply_rule tableD (mkState tableD [nNP, nVP])).map
      (fun pr => pr.1.valid_rules) = some [] ∧
    ([] : List (Int × Int)) ≠ [((0 : Int), (2 : Int))] :=
  ⟨rfl, rfl, by decide⟩

/-- C3 witness: the construction-exactness and the pop equation at the
concrete `[NP, VP]` state. -/
theorem c3_witness :
    (((0 : Int), (2 : Int)) ∈ (mkState tableD [nNP, nVP]).valid_rules) ∧
    c3Parent.valid_rules = (mkState tableD [nNP, nVP]).valid_rules.dropLast :=
  ⟨(c3_spans_exact_at_construction_but_popped.1 tableD [nNP, nVP] 0 2
      (by decide)).mpr ⟨0, 2, rfl, rfl, by omega, by decide, by omega, by decide⟩,
   (c3_spans_exact_at_construction_but_popped.2 tableD
      (mkState tableD [nNP, nVP]) c3Parent c3Child rfl).2⟩

/-! ## Claim C4: wide branching in the evaluator -/

/-- C4 amended: evaluating a node with strictly more than two children does
not raise any error: `Model.traverse` falls through its arity cases and
returns the node itself, unevaluated. -/
theorem c4_wide_branching_returns_node :
    ∀ (lab : String) (cs : List Node), 2 < cs.length →
      traverse (Node.mk lab (some cs))
        = .ok (.node (Node.mk lab (some cs))) := by
  intro lab cs h
  rcases cs with _ | ⟨a, _ | ⟨b, _ | ⟨c, rest⟩⟩⟩
  · exact absurd h (by simp)
  · exact absurd h (by simp)
  · exact absurd h (by simp)
  · rfl

/-- C4 counterexample: a three-child node evaluates to an `ok` result (the
node itself), not an `UnsupportedArityError` — no such error exists in the
code. -/
theorem c4_counterexample :
    traverse (Node.mk "S" (some
        [Node.mk "p" none, Node.mk "q" none, Node.mk "r" none]))
      = .ok (.node (Node.mk "S" (some
        [Node.mk "p" none, Node.mk "q" none, Node.mk "r" none]))) := rfl

/-- C4 witness: the amended theorem at a concrete four-child node. -/
theorem c4_witness :
    2 < ([Node.mk "w" none, Node.mk "x" none, Node.mk "y" none,
          Node.mk "z" none] : List Node).length ∧
    traverse (Node.mk "T" (some [Node.mk "w" none, Node.mk "x" none,
        Node.mk "y" none, Node.mk "z" none]))
      = .ok (.node (Node.mk "T" (some [Node.mk "w" none, Node.mk "x" none,
        Node.mk "y" none, Node.mk "z" none]))) :=
  ⟨by decide, c4_wide_branching_returns_node "T"
    [Node.mk "w" none, Node.mk "x" none, Node.mk "y" none, Node.mk "z" none]
    (by decide)⟩

/-! ## Claim C7: transitive-verb evaluation on the concrete model -/

/-- The unique parse of `"jane admired mike"`. -/
def tJAM : Node :=
  Node.mk "S" (some
    [Node.mk "NP" (some [Node.mk "PN" (some [Node.mk "jane" none])]),
     Node.mk "VP" (some
       [Node.mk "V_T" (some [Node.mk "admired" none]),
        Node.mk "NP" (some [Node.mk "PN" (some [Node.mk "mike" none])])])])

/-- The unique parse of `"mike admired jane"`. -/
def tMAJ : Node :=
  Node.mk "S" (some
    [Node.mk "NP" (some [Node.mk "PN" (some [Node.mk "mike" none])]),
     Node.mk "VP" (some
       [Node.mk "V_T" (some [Node.mk "admired" none]),
        Node.mk "NP" (some [Node.mk "PN" (some [Node.mk "jane" none])])])])

/-- C7: under the model (`admired` contains `(j, m)`, `jane ↦ j`,
`mike ↦ m`), the enumerator yields exactly one tree for each of
`"jane admired mike"` and `"mike admired jane"`, and `Model.traverse`
evaluates the first to `true` and the second to `false`. -/
theorem c7_relation_evaluation :
    semantics_tree_run 10 5 "jane admired mike" = some [tJAM] ∧
    traverse tJAM = .ok (.bool true) ∧
    semantics_tree_run 10 5 "mike admired jane" = some [tMAJ] ∧
    traverse tMAJ = .ok (.bool false) ∧
    admiredPairs.contains ("j", "m") = true ∧
    gLookup "jane" = some (.str "j") ∧
    gLookup "mike" = some (.str "m") :=
  ⟨rfl, rfl, rfl, rfl, rfl, rfl, rfl⟩

/-! ## Claim C8: re-running the enumerator -/

/-- C8: `build_coordination_rules` is idempotent on the shared table, so the
table a second constructor call searches with equals the first one's, and the
whole pipeline returns the identical forest (list equality, hence set
equality) on every sentence, fuel and percolation mode. -/
theorem c8_rerun_deterministic :
    build_coordination_rules tableD = tableD ∧
    ∀ (sentence : String) (lf pf : Nat) (pp : Bool),
      generate_all_valid_trees (build_coordination_rules tableD) lf pf
          sentence pp
        = generate_all_valid_trees tableD lf pf sentence pp := by
  have hid : build_coordination_rules tableD = tableD := by decide
  exact ⟨hid, fun sentence lf pf pp => by rw [hid]⟩

/-! ## Claim C9: hash consistent with structural equality -/

/-- C9: `Node.__hash__` hashes the label-free `struct_string`; since
`Node.__eq__` forces equal `struct_string`s, any interpreter string-hash `h`
assigns equal hashes to `__eq__`-equal nodes. -/
theorem c9_structural_hash_consistent :
    ∀ (h : String → Int) (a b : Node), nodeEqb a b = true →
      nodeHash h a = nodeHash h b := by
  intro h a b heq
  unfold nodeHash
  rw [nodeEqb_structString a b heq]

/-- C9 witness: two `__eq__`-equal nodes (one with `children = None`, the
other with `children = []`) get the same hash under a concrete hash. -/
theorem c9_witness :
    nodeEqb (Node.mk "S" (some [Node.mk "NP" none]))
      (Node.mk "S" (some [Node.mk "NP" (some [])])) = true ∧
    nodeHash (fun s => (s.length : Int)) (Node.mk "S" (some [Node.mk "NP" none]))
      = nodeHash (fun s => (s.length : Int))
          (Node.mk "S" (some [Node.mk "NP" (some [])])) :=
  ⟨rfl, c9_structural_hash_consistent (fun s => (s.length : Int)) _ _ rfl⟩

/-! ## Concrete witnesses for the enumerator claims -/

/-- The unique parse of `"jane ran"`. -/
def tJR : Node :=
  Node.mk "S" (some
    [Node.mk "NP" (some [Node.mk "PN" (some [Node.mk "jane" none])]),
     Node.mk "VP" (some [Node.mk "V_I" (some [Node.mk "ran" none])])])

/-- C1 witness: the root returned for `"jane ran"` has an empty applicable
span set when reinserted as a singleton state. -/
theorem c1_witness :
    semantics_tree_run 10 5 "jane ran" = some [tJR] ∧
    (mkState tableD [tJR]).valid_rules = [] :=
  ⟨rfl, c1_returned_roots_closed "jane ran" 10 5 [tJR] rfl tJR
    (List.mem_cons_self _ _)⟩

/-- C2 witness: the forest returned for `"jane ran"` is pairwise
structurally distinct. -/
theorem c2_witness :
    generate_all_valid_trees tableD 10 5 "jane ran" true = some [tJR] ∧
    List.Pairwise (fun a b => nodeEqb a b = false) [tJR] :=
  ⟨rfl, c2_no_duplicate_trees tableD 10 5 "jane ran" true [tJR] rfl⟩

/-- C6 counterexample: the single-token sentence `"qqq"`, whose token is
neither a lexicon key nor a percolation key, returns a non-empty forest (its
own one-leaf tree), not an empty one. -/
theorem c6_counterexample :
    rtLookup tableD "qqq" = none ∧
    semantics_tree_run 5 3 "qqq" = some [Node.mk "qqq" none] ∧
    some [Node.mk "qqq" none] ≠ some ([] : List Node) :=
  ⟨rfl, rfl, by simp⟩

/-- C6 witness: the amended theorem applied to the two-token sentence
`"vv ww"` with the grammar-free token `vv`. -/
theorem c6_witness :
    ("vv" ∈ pySplit "vv ww") ∧ badTok "vv" = true ∧
    2 ≤ (pySplit "vv ww").length ∧ (([] : List Node) = []) :=
  ⟨by decide, by decide, by decide,
    c6_unknown_token_empty_forest "vv ww" "vv" 10 5 [] (by decide) (by decide)
      (by decide) rfl⟩

/-- C10 witness: the unknown single token `"zq"` comes back as its own
one-leaf tree. -/
theorem c10_witness :
    pySplit "zq" = ["zq"] ∧
    (∃ nd, percolate_token tableD 3 (Node.mk "zq" none) = some nd ∧
      [Node.mk "zq" none] = [nd]) :=
  ⟨rfl, c10_singleton_sentence_one_tree "zq" "zq" 5 3 [Node.mk "zq" none]
    rfl rfl⟩

end SemTree
